import Mathlib

/-!
Verification of the mathplot view-transform and rendering pipeline
(`src/index.js`), shallowly embedded over exact rational arithmetic.

The mutable `config` object of the source becomes the `Config` structure;
the mouse/wheel/reset handlers become pure state transformers; the
per-pixel-column sampling loop of `drawCurve` becomes a recursive function
producing path segments; `calculateStep` and the tick loops of `drawGrid`
are embedded directly.  JavaScript numbers are modelled as exact rationals,
with `JSNum` distinguishing finite values from `NaN` and the infinities
where the program itself distinguishes them (`isNaN(y) || !isFinite(y)`).
-/

/-- The `config` object of `src/index.js` (lines 7–16): view transform plus
rendering constants. -/
structure Config where
  scale : ℚ
  offsetX : ℚ
  offsetY : ℚ
  step : ℚ
  axisColor : String
  gridColor : String
  lineColor : String
  lineWidth : ℚ
deriving Repr, DecidableEq

/-- The initial value of `config` (lines 7–16). -/
def defaultConfig : Config where
  scale := 40
  offsetX := 0
  offsetY := 0
  step := 0.05
  axisColor := "#fff"
  gridColor := "rgba(255, 255, 255, 0.1)"
  lineColor := "#06b6d4"
  lineWidth := 3

/-- Screen x of a math point: `centerX + (val + config.offsetX) * config.scale`
(lines 219 and, for the curve, 293–311 use the same formula implicitly via
`xPixel` inversion). -/
def mathToScreenX (centerX : ℚ) (cfg : Config) (x : ℚ) : ℚ :=
  centerX + (x + cfg.offsetX) * cfg.scale

/-- Screen y of a math point: `centerY - (y - config.offsetY) * config.scale`
(lines 238 and 311). -/
def mathToScreenY (centerY : ℚ) (cfg : Config) (y : ℚ) : ℚ :=
  centerY - (y - cfg.offsetY) * cfg.scale

/-- Math x under a screen pixel: `(px - centerX) / config.scale - config.offsetX`
(lines 136 and 295). -/
def screenToMathX (centerX : ℚ) (cfg : Config) (px : ℚ) : ℚ :=
  (px - centerX) / cfg.scale - cfg.offsetX

/-- Math y under a screen pixel: `-(py - centerY) / config.scale + config.offsetY`
(line 138). -/
def screenToMathY (centerY : ℚ) (cfg : Config) (py : ℚ) : ℚ :=
  -(py - centerY) / cfg.scale + cfg.offsetY

/-- The pan update of the `mousemove` handler (lines 91–120):
`config.offsetX += dx / config.scale; config.offsetY += dy / config.scale`. -/
def pan (cfg : Config) (dx dy : ℚ) : Config :=
  { cfg with
    offsetX := cfg.offsetX + dx / cfg.scale
    offsetY := cfg.offsetY + dy / cfg.scale }

/-- The two sequential clamping statements of the wheel handler
(lines 143–144): `if (newScale < 0.001) newScale = 0.001;
if (newScale > 100000) newScale = 100000;`. -/
def clampScale (s : ℚ) : ℚ :=
  let s1 := if s < 0.001 then 0.001 else s
  if s1 > 100000 then 100000 else s1

/-- The body of the wheel handler (lines 129–159) once the zoom factor has
been computed: compute the math point under the cursor with the pre-zoom
scale, clamp the new scale, recompute both offsets so the anchor point stays
put. -/
def zoomWithFactor (centerX centerY : ℚ) (cfg : Config)
    (mouseX mouseY factor : ℚ) : Config :=
  let mathX := (mouseX - centerX) / cfg.scale - cfg.offsetX
  let mathY := -(mouseY - centerY) / cfg.scale + cfg.offsetY
  let newScale := clampScale (cfg.scale * factor)
  { cfg with
    scale := newScale
    offsetX := (mouseX - centerX) / newScale - mathX
    offsetY := mathY - (centerY - mouseY) / newScale }

/-- The wheel handler (lines 122–162): the zoom factor is `1 ± 0.1` with the
sign taken from `deltaY`. -/
def wheelZoom (centerX centerY : ℚ) (cfg : Config) (mouseX mouseY deltaY : ℚ) :
    Config :=
  zoomWithFactor centerX centerY cfg mouseX mouseY
    (1 + 0.1 * if deltaY < 0 then 1 else -1)

/-- The reset-button handler (lines 33–38): restore scale and offsets. -/
def resetView (cfg : Config) : Config :=
  { cfg with scale := 40, offsetX := 0, offsetY := 0 }

lemma clampScale_mem (s : ℚ) : 0.001 ≤ clampScale s ∧ clampScale s ≤ 100000 := by
  simp only [clampScale]
  split_ifs <;> constructor <;> norm_num <;> linarith

lemma clampScale_pos (s : ℚ) : 0 < clampScale s :=
  lt_of_lt_of_le (by norm_num) (clampScale_mem s).1

lemma zoomWithFactor_anchor (centerX centerY : ℚ) (cfg : Config)
    (mouseX mouseY factor : ℚ) (hs : cfg.scale ≠ 0) :
    mathToScreenX centerX (zoomWithFactor centerX centerY cfg mouseX mouseY factor)
        (screenToMathX centerX cfg mouseX) = mouseX ∧
    mathToScreenY centerY (zoomWithFactor centerX centerY cfg mouseX mouseY factor)
        (screenToMathY centerY cfg mouseY) = mouseY := by
  have hns : clampScale (cfg.scale * factor) ≠ 0 := ne_of_gt (clampScale_pos _)
  constructor
  · simp only [mathToScreenX, zoomWithFactor, screenToMathX]
    field_simp
    try ring
  · simp only [mathToScreenY, zoomWithFactor, screenToMathY]
    field_simp
    try ring

/-- C1: Anchored zoom invariance.  For any pre-zoom state with scale in the
clamped range, any cursor pixel and any wheel delta (hence factor `1 ± 0.1`),
the math point that was under the cursor before the zoom maps back to exactly
the cursor pixel under the post-zoom scale and offsets, including when the
new scale is clamped at a boundary. -/
theorem wheelZoom_anchor_invariant (centerX centerY : ℚ) (cfg : Config)
    (mouseX mouseY deltaY : ℚ)
    (hlo : 0.001 ≤ cfg.scale) (hhi : cfg.scale ≤ 100000) :
    mathToScreenX centerX (wheelZoom centerX centerY cfg mouseX mouseY deltaY)
        (screenToMathX centerX cfg mouseX) = mouseX ∧
    mathToScreenY centerY (wheelZoom centerX centerY cfg mouseX mouseY deltaY)
        (screenToMathY centerY cfg mouseY) = mouseY := by
  have hs : cfg.scale ≠ 0 := ne_of_gt (lt_of_lt_of_le (by norm_num) hlo)
  exact zoomWithFactor_anchor centerX centerY cfg mouseX mouseY _ hs

/-- Witness for C1 at a concrete state. -/
theorem wheelZoom_anchor_invariant_witness :
    (0.001 : ℚ) ≤ 40 ∧ (40 : ℚ) ≤ 100000 ∧
    (mathToScreenX 400 (wheelZoom 400 300 defaultConfig 123 77 (-3))
        (screenToMathX 400 defaultConfig 123) = 123 ∧
     mathToScreenY 300 (wheelZoom 400 300 defaultConfig 123 77 (-3))
        (screenToMathY 300 defaultConfig 77) = 77) :=
  ⟨by norm_num, by norm_num,
   wheelZoom_anchor_invariant 400 300 defaultConfig 123 77 (-3)
     (by norm_num [defaultConfig]) (by norm_num [defaultConfig])⟩

/-- C2: Round-trip of the coordinate transforms.  For any finite math point,
any positive scale and any offsets, `screenToMath (mathToScreen (x, y)) = (x, y)`
exactly in rational arithmetic. -/
theorem screenToMath_mathToScreen_roundTrip (centerX centerY : ℚ) (cfg : Config)
    (x y : ℚ) (hs : 0 < cfg.scale) :
    screenToMathX centerX cfg (mathToScreenX centerX cfg x) = x ∧
    screenToMathY centerY cfg (mathToScreenY centerY cfg y) = y := by
  have h : cfg.scale ≠ 0 := ne_of_gt hs
  constructor
  · unfold screenToMathX mathToScreenX
    field_simp
  · unfold screenToMathY mathToScreenY
    field_simp
    try ring

/-- Witness for C2 at a concrete state. -/
theorem screenToMath_mathToScreen_roundTrip_witness :
    (0 : ℚ) < (40 : ℚ) ∧
    (screenToMathX 400 defaultConfig (mathToScreenX 400 defaultConfig 7) = 7 ∧
     screenToMathY 300 defaultConfig (mathToScreenY 300 defaultConfig (-2)) = -2) :=
  ⟨by norm_num,
   screenToMath_mathToScreen_roundTrip 400 300 defaultConfig 7 (-2)
     (by norm_num [defaultConfig])⟩

/-- C8: Pan correctness.  For any state with positive scale and any pixel
delta, panning moves the screen position of every fixed math point by exactly
that delta. -/
theorem pan_moves_by_delta (centerX centerY : ℚ) (cfg : Config)
    (dx dy x y : ℚ) (hs : 0 < cfg.scale) :
    mathToScreenX centerX (pan cfg dx dy) x = mathToScreenX centerX cfg x + dx ∧
    mathToScreenY centerY (pan cfg dx dy) y = mathToScreenY centerY cfg y + dy := by
  have h : cfg.scale ≠ 0 := ne_of_gt hs
  constructor
  · unfold mathToScreenX pan
    field_simp
    try ring
  · unfold mathToScreenY pan
    field_simp
    try ring

/-- Witness for C8 at a concrete state. -/
theorem pan_moves_by_delta_witness :
    (0 : ℚ) < (40 : ℚ) ∧
    (mathToScreenX 400 (pan defaultConfig 15 (-9)) 3
        = mathToScreenX 400 defaultConfig 3 + 15 ∧
     mathToScreenY 300 (pan defaultConfig 15 (-9)) 5
        = mathToScreenY 300 defaultConfig 5 + (-9)) :=
  ⟨by norm_num,
   pan_moves_by_delta 400 300 defaultConfig 15 (-9) 3 5
     (by norm_num [defaultConfig])⟩

/-- The user interactions that mutate `config`: dragging (mousemove while
dragging), the wheel handler, and the reset button. -/
inductive UserOp where
  | panOp (dx dy : ℚ)
  | wheelOp (mouseX mouseY deltaY : ℚ)
  | resetOp
deriving Repr, DecidableEq

/-- Dispatch of one user interaction to the corresponding handler. -/
def applyOp (centerX centerY : ℚ) (cfg : Config) : UserOp → Config
  | .panOp dx dy => pan cfg dx dy
  | .wheelOp mouseX mouseY deltaY => wheelZoom centerX centerY cfg mouseX mouseY deltaY
  | .resetOp => resetView cfg

lemma applyOp_scale_mem (centerX centerY : ℚ) (cfg : Config) (op : UserOp)
    (h : 0.001 ≤ cfg.scale ∧ cfg.scale ≤ 100000) :
    0.001 ≤ (applyOp centerX centerY cfg op).scale ∧
    (applyOp centerX centerY cfg op).scale ≤ 100000 := by
  cases op with
  | panOp dx dy => exact h
  | wheelOp mouseX mouseY deltaY => exact clampScale_mem _
  | resetOp => constructor <;> norm_num [applyOp, resetView]

/-- C4: Scale-clamp invariant.  Starting from the default configuration
(scale 40), after any sequence of pan, wheel-zoom and reset operations the
scale lies in `[0.001, 100000]`. -/
theorem scale_clamp_invariant (centerX centerY : ℚ) (ops : List UserOp) :
    0.001 ≤ (ops.foldl (applyOp centerX centerY) defaultConfig).scale ∧
    (ops.foldl (applyOp centerX centerY) defaultConfig).scale ≤ 100000 := by
  have main : ∀ (l : List UserOp) (cfg : Config),
      0.001 ≤ cfg.scale ∧ cfg.scale ≤ 100000 →
      0.001 ≤ (l.foldl (applyOp centerX centerY) cfg).scale ∧
      (l.foldl (applyOp centerX centerY) cfg).scale ≤ 100000 := by
    intro l
    induction l with
    | nil => intro cfg h; exact h
    | cons op rest ih =>
        intro cfg h
        exact ih _ (applyOp_scale_mem centerX centerY cfg op h)
  exact main ops defaultConfig (by constructor <;> norm_num [defaultConfig])

/-- The nice-number selection of `calculateStep` (lines 169–179) as a
function of `stepUnits`: `magnitude = 10^floor(log10(stepUnits))`,
`residual = stepUnits / magnitude`, then pick `10·m`, `5·m`, `2·m` or `m`.
`Math.floor(Math.log10 u)` is `Int.log 10 u` in exact arithmetic. -/
def niceStep (stepUnits : ℚ) : ℚ :=
  let magnitude : ℚ := (10 : ℚ) ^ Int.log 10 stepUnits
  let residual := stepUnits / magnitude
  if residual > 5 then 10 * magnitude
  else if residual > 2 then 5 * magnitude
  else if residual > 1 then 2 * magnitude
  else magnitude

/-- The function `calculateStep` (lines 164–180): `stepUnits = targetPixels / scale` with
`targetPixels = 80`, fed to the nice-number selection. -/
def calculateStep (scale : ℚ) : ℚ :=
  niceStep (80 / scale)

lemma mag_pos (u : ℚ) : 0 < (10 : ℚ) ^ Int.log 10 u :=
  zpow_pos (by norm_num) _

lemma mag_le {u : ℚ} (hu : 0 < u) : (10 : ℚ) ^ Int.log 10 u ≤ u := by
  have h := Int.zpow_log_le_self (b := 10) (R := ℚ) (by norm_num) hu
  exact_mod_cast h

lemma lt_mag_succ (u : ℚ) : u < (10 : ℚ) ^ (Int.log 10 u + 1) := by
  have h := Int.lt_zpow_succ_log_self (b := 10) (R := ℚ) (by norm_num) u
  exact_mod_cast h

lemma log_ten_zpow (k : ℤ) : Int.log 10 ((10 : ℚ) ^ k) = k := by
  have h := Int.log_zpow (b := 10) (R := ℚ) (by norm_num) k
  have hcast : (((10 : ℕ) : ℚ)) ^ k = (10 : ℚ) ^ k := by norm_num
  rwa [hcast] at h

lemma ten_zpow_succ (k : ℤ) : (10 : ℚ) ^ (k + 1) = 10 * (10 : ℚ) ^ k := by
  rw [zpow_add_one₀ (by norm_num : (10 : ℚ) ≠ 0)]
  ring

lemma log_mul_mag {c : ℚ} (hc1 : 1 ≤ c) (hc10 : c < 10) (k : ℤ) :
    Int.log 10 (c * (10 : ℚ) ^ k) = k := by
  have hzk : (0 : ℚ) < (10 : ℚ) ^ k := zpow_pos (by norm_num) _
  have hpos : (0 : ℚ) < c * (10 : ℚ) ^ k := mul_pos (by linarith) hzk
  have hk_le : k ≤ Int.log 10 (c * (10 : ℚ) ^ k) := by
    have h1 : (10 : ℚ) ^ k ≤ c * (10 : ℚ) ^ k := le_mul_of_one_le_left hzk.le hc1
    have h2 := Int.log_mono_right (b := 10) hzk h1
    rwa [log_ten_zpow] at h2
  have hk_ge : Int.log 10 (c * (10 : ℚ) ^ k) ≤ k := by
    by_contra hlt
    push_neg at hlt
    have h1 : (10 : ℚ) ^ (k + 1) ≤ (10 : ℚ) ^ Int.log 10 (c * (10 : ℚ) ^ k) :=
      zpow_le_zpow_right₀ (by norm_num) (by omega)
    have h2 := Int.zpow_log_le_self (b := 10) (R := ℚ) (by norm_num) hpos
    have h2' : (10 : ℚ) ^ Int.log 10 (c * (10 : ℚ) ^ k) ≤ c * (10 : ℚ) ^ k := by
      exact_mod_cast h2
    have h3 : c * (10 : ℚ) ^ k < 10 * (10 : ℚ) ^ k := by nlinarith
    have h4 := ten_zpow_succ k
    linarith
  omega

/-- C6: Nice-number set.  For every scale in the clamped range,
`calculateStep` returns a value that is 1, 2, 5 or 10 times a power of ten,
and its normalized mantissa `step / 10^floor(log10 step)` lies in
`{1, 2, 5, 10}`. -/
theorem calculateStep_nice (scale : ℚ)
    (h1 : 0.001 ≤ scale) (h2 : scale ≤ 100000) :
    (∃ k : ℤ, calculateStep scale = (10 : ℚ) ^ k ∨
        calculateStep scale = 2 * (10 : ℚ) ^ k ∨
        calculateStep scale = 5 * (10 : ℚ) ^ k ∨
        calculateStep scale = 10 * (10 : ℚ) ^ k) ∧
    (calculateStep scale / (10 : ℚ) ^ Int.log 10 (calculateStep scale) = 1 ∨
     calculateStep scale / (10 : ℚ) ^ Int.log 10 (calculateStep scale) = 2 ∨
     calculateStep scale / (10 : ℚ) ^ Int.log 10 (calculateStep scale) = 5 ∨
     calculateStep scale / (10 : ℚ) ^ Int.log 10 (calculateStep scale) = 10) := by
  have hscale : 0 < scale := lt_of_lt_of_le (by norm_num) h1
  have hM := mag_pos (80 / scale)
  have hMne : (10 : ℚ) ^ Int.log 10 (80 / scale) ≠ 0 := ne_of_gt hM
  simp only [calculateStep, niceStep]
  split_ifs with hA hB hC
  · constructor
    · exact ⟨Int.log 10 (80 / scale), Or.inr (Or.inr (Or.inr rfl))⟩
    · left
      rw [← ten_zpow_succ, log_ten_zpow, div_self (ne_of_gt (zpow_pos (by norm_num) _))]
  · constructor
    · exact ⟨Int.log 10 (80 / scale), Or.inr (Or.inr (Or.inl rfl))⟩
    · right; right; left
      rw [log_mul_mag (by norm_num) (by norm_num), mul_div_assoc, div_self hMne, mul_one]
  · constructor
    · exact ⟨Int.log 10 (80 / scale), Or.inr (Or.inl rfl)⟩
    · right; left
      rw [log_mul_mag (by norm_num) (by norm_num), mul_div_assoc, div_self hMne, mul_one]
  · constructor
    · exact ⟨Int.log 10 (80 / scale), Or.inl rfl⟩
    · left
      rw [log_ten_zpow, div_self hMne]

/-- Witness for C6 at scale 40 (the default). -/
theorem calculateStep_nice_witness :
    (0.001 : ℚ) ≤ 40 ∧ (40 : ℚ) ≤ 100000 ∧
    ((∃ k : ℤ, calculateStep 40 = (10 : ℚ) ^ k ∨
        calculateStep 40 = 2 * (10 : ℚ) ^ k ∨
        calculateStep 40 = 5 * (10 : ℚ) ^ k ∨
        calculateStep 40 = 10 * (10 : ℚ) ^ k) ∧
     (calculateStep 40 / (10 : ℚ) ^ Int.log 10 (calculateStep 40) = 1 ∨
      calculateStep 40 / (10 : ℚ) ^ Int.log 10 (calculateStep 40) = 2 ∨
      calculateStep 40 / (10 : ℚ) ^ Int.log 10 (calculateStep 40) = 5 ∨
      calculateStep 40 / (10 : ℚ) ^ Int.log 10 (calculateStep 40) = 10)) :=
  ⟨by norm_num, by norm_num, calculateStep_nice 40 (by norm_num) (by norm_num)⟩

lemma le_niceStep {u : ℚ} (hu : 0 < u) :
    (10 : ℚ) ^ Int.log 10 u ≤ niceStep u := by
  have hM := mag_pos u
  simp only [niceStep]
  split_ifs <;> linarith

lemma niceStep_le (u : ℚ) : niceStep u ≤ 10 * (10 : ℚ) ^ Int.log 10 u := by
  have hM := mag_pos u
  simp only [niceStep]
  split_ifs <;> linarith

lemma niceStep_mono {u₁ u₂ : ℚ} (h1 : 0 < u₁) (h12 : u₁ ≤ u₂) :
    niceStep u₁ ≤ niceStep u₂ := by
  have h2 : 0 < u₂ := lt_of_lt_of_le h1 h12
  have hk : Int.log 10 u₁ ≤ Int.log 10 u₂ := Int.log_mono_right h1 h12
  rcases eq_or_lt_of_le hk with heq | hlt
  · have hM := mag_pos u₁
    have hr : u₁ / (10 : ℚ) ^ Int.log 10 u₁ ≤ u₂ / (10 : ℚ) ^ Int.log 10 u₁ :=
      (div_le_div_right hM).mpr h12
    simp only [niceStep, ← heq]
    split_ifs <;> linarith
  · calc niceStep u₁ ≤ 10 * (10 : ℚ) ^ Int.log 10 u₁ := niceStep_le u₁
      _ = (10 : ℚ) ^ (Int.log 10 u₁ + 1) := (ten_zpow_succ _).symm
      _ ≤ (10 : ℚ) ^ Int.log 10 u₂ := zpow_le_zpow_right₀ (by norm_num) (by omega)
      _ ≤ niceStep u₂ := le_niceStep h2

/-- C7: Grid-step monotonicity.  For scales `s₂ < s₁` in the clamped range,
the step computed at the smaller scale is at least the step computed at the
larger scale: zooming out never decreases the tick step. -/
theorem calculateStep_antitone (s₁ s₂ : ℚ)
    (hlo : 0.001 ≤ s₂) (hlt : s₂ < s₁) (hhi : s₁ ≤ 100000) :
    calculateStep s₁ ≤ calculateStep s₂ := by
  have h2 : 0 < s₂ := lt_of_lt_of_le (by norm_num) hlo
  have h1 : 0 < s₁ := lt_trans h2 hlt
  have hu1 : 0 < 80 / s₁ := by positivity
  have hle : 80 / s₁ ≤ 80 / s₂ := by
    rw [div_le_div_iff h1 h2]
    nlinarith
  exact niceStep_mono hu1 hle

/-- Witness for C7 at scales 80 and 40. -/
theorem calculateStep_antitone_witness :
    (0.001 : ℚ) ≤ 40 ∧ (40 : ℚ) < 80 ∧ (80 : ℚ) ≤ 100000 ∧
    calculateStep 80 ≤ calculateStep 40 :=
  ⟨by norm_num, by norm_num, by norm_num,
   calculateStep_antitone 80 40 (by norm_num) (by norm_num) (by norm_num)⟩

/-- The tick-enumeration loop of `drawGrid` (lines 216 and 236):
`for (let v = lo; v <= hi; v += step)`, collecting the visited values.  The
loop guard carries the positivity of `step` that makes it terminate. -/
def tickLoop (step hi x : ℚ) : List ℚ :=
  if h : 0 < step ∧ x ≤ hi then x :: tickLoop step hi (x + step) else []
termination_by (⌊(hi - x) / step⌋ + 1).toNat
decreasing_by
  obtain ⟨hs, hx⟩ := h
  have hfl : (hi - (x + step)) / step = (hi - x) / step - 1 := by
    field_simp
    ring
  have h0 : 0 ≤ ⌊(hi - x) / step⌋ :=
    Int.floor_nonneg.mpr (div_nonneg (by linarith) hs.le)
  rw [hfl, Int.floor_sub_one]
  omega

lemma tickLoop_length (step hi x : ℚ) :
    (tickLoop step hi x).length =
      if 0 < step ∧ x ≤ hi then (⌊(hi - x) / step⌋ + 1).toNat else 0 := by
  refine tickLoop.induct step hi
    (fun t => (tickLoop step hi t).length =
      if 0 < step ∧ t ≤ hi then (⌊(hi - t) / step⌋ + 1).toNat else 0) ?_ ?_ x
  · intro t h ih
    obtain ⟨hs, ht⟩ := h
    rw [tickLoop, dif_pos ⟨hs, ht⟩, List.length_cons, ih]
    by_cases h2 : t + step ≤ hi
    · rw [if_pos (⟨hs, h2⟩ : 0 < step ∧ t + step ≤ hi),
        if_pos (⟨hs, ht⟩ : 0 < step ∧ t ≤ hi)]
      have hfl : (hi - (t + step)) / step = (hi - t) / step - 1 := by
        field_simp
        ring
      have h1 : 1 ≤ ⌊(hi - t) / step⌋ := by
        rw [Int.le_floor]
        exact_mod_cast (one_le_div hs).mpr (by linarith)
      rw [hfl, Int.floor_sub_one]
      omega
    · rw [if_neg (fun hc : 0 < step ∧ t + step ≤ hi => h2 hc.2),
        if_pos (⟨hs, ht⟩ : 0 < step ∧ t ≤ hi)]
      have h0 : ⌊(hi - t) / step⌋ = 0 := by
        rw [Int.floor_eq_zero_iff]
        constructor
        · exact div_nonneg (by linarith) hs.le
        · exact (div_lt_one hs).mpr (by linarith)
      rw [h0]
      rfl
  · intro t h
    rw [tickLoop, dif_neg h, if_neg h]
    rfl

/-- The x tick list of `drawGrid` (lines 191–198, 216): visible range from
`screenToMath` at the two horizontal extremes, rounded out to multiples of
the step. -/
def drawGridXTicks (centerX width : ℚ) (cfg : Config) : List ℚ :=
  let step := calculateStep cfg.scale
  let startX := -centerX / cfg.scale - cfg.offsetX
  let endX := (width - centerX) / cfg.scale - cfg.offsetX
  let minX := ⌊startX / step⌋ * step
  let maxX := ⌈endX / step⌉ * step
  tickLoop step maxX minX

/-- The y tick list of `drawGrid` (lines 193–205, 236). -/
def drawGridYTicks (centerY height : ℚ) (cfg : Config) : List ℚ :=
  let step := calculateStep cfg.scale
  let startY := -centerY / cfg.scale + cfg.offsetY
  let endY := (height - centerY) / cfg.scale + cfg.offsetY
  let minY := ⌊min startY endY / step⌋ * step
  let maxY := ⌈max startY endY / step⌉ * step
  tickLoop step maxY minY

/-- C10: Implicit grid-loop termination.  For every scale in the clamped
range, `calculateStep` returns a strictly positive step, and the tick loop
of `drawGrid` run with that step performs exactly the expected finite number
of iterations for any bounds (zero when the range is empty). -/
theorem calculateStep_pos_ticks_finite (scale : ℚ)
    (h1 : 0.001 ≤ scale) (h2 : scale ≤ 100000) :
    0 < calculateStep scale ∧
    ∀ lo hi : ℚ, (tickLoop (calculateStep scale) hi lo).length =
      if lo ≤ hi then (⌊(hi - lo) / calculateStep scale⌋ + 1).toNat else 0 := by
  have hscale : 0 < scale := lt_of_lt_of_le (by norm_num) h1
  have hu : 0 < (80 : ℚ) / scale := by positivity
  have hpos : 0 < calculateStep scale :=
    lt_of_lt_of_le (mag_pos (80 / scale)) (le_niceStep hu)
  refine ⟨hpos, fun lo hi => ?_⟩
  rw [tickLoop_length]
  by_cases h : lo ≤ hi
  · rw [if_pos ⟨hpos, h⟩, if_pos h]
  · rw [if_neg (by tauto), if_neg h]

/-- Witness for C10 at scale 40 (the default). -/
theorem calculateStep_pos_ticks_finite_witness :
    (0.001 : ℚ) ≤ 40 ∧ (40 : ℚ) ≤ 100000 ∧
    (0 < calculateStep 40 ∧
     ∀ lo hi : ℚ, (tickLoop (calculateStep 40) hi lo).length =
       if lo ≤ hi then (⌊(hi - lo) / calculateStep 40⌋ + 1).toNat else 0) :=
  ⟨by norm_num, by norm_num,
   calculateStep_pos_ticks_finite 40 (by norm_num) (by norm_num)⟩

/-- A JavaScript number as the sampling loop classifies it: a finite
rational, `NaN`, or one of the two infinities. -/
inductive JSNum where
  | fin (q : ℚ)
  | nan
  | posInf
  | negInf
deriving Repr, DecidableEq

/-- The check `isNaN(y)` for a `JSNum`. -/
def JSNum.isNaN : JSNum → Bool
  | .nan => true
  | _ => false

/-- The check `isFinite(y)` for a `JSNum`. -/
def JSNum.isFinite : JSNum → Bool
  | .fin _ => true
  | _ => false

/-- The value a sample contributes: `some y` for a finite `y`, `none` when
the sample is rejected by the check `isNaN(y) || !isFinite(y)` (line 304). -/
def JSNum.toFinite : JSNum → Option ℚ
  | .fin q => some q
  | _ => none

lemma JSNum.toFinite_eq_none_iff (v : JSNum) :
    v.toFinite = none ↔ (v.isNaN || !v.isFinite) = true := by
  cases v <;> simp [JSNum.toFinite, JSNum.isNaN, JSNum.isFinite]

/-- The function `evaluateFunction` (lines 52–70): runs the compiled expression — which
may itself throw, abstracted as `raw` returning `Except` — and returns `NaN`
for any caught exception. -/
def evaluateFunction (raw : String → ℚ → Except Unit JSNum)
    (expression : String) (x : ℚ) : JSNum :=
  match raw expression x with
  | Except.ok v => v
  | Except.error _ => JSNum.nan

/-- The segment closed when a sample is rejected or the loop ends: the
subpath opened by the last `moveTo`, empty if no point is pending. -/
def closeSeg (cur : List (ℚ × ℚ)) : List (List (ℚ × ℚ)) :=
  if cur.isEmpty then [] else [cur.reverse]

/-- The sampling loop of `drawCurve` (lines 293–327): per pixel column,
convert to math x (line 295), evaluate, break the path on a rejected sample
(lines 304–307, `firstPoint = true; continue`), otherwise `moveTo`/`lineTo`
the pixel point (lines 311–326).  `cur` is the open subpath in reverse
order; the result is the list of completed subpaths. -/
def drawCurveAux (f : ℚ → JSNum) (centerX centerY : ℚ) (cfg : Config) :
    List ℕ → List (ℚ × ℚ) → List (List (ℚ × ℚ))
  | [], cur => closeSeg cur
  | xPixel :: rest, cur =>
      match (f (((xPixel : ℚ) - centerX) / cfg.scale - cfg.offsetX)).toFinite with
      | some y =>
          drawCurveAux f centerX centerY cfg rest
            (((xPixel : ℚ), centerY - (y - cfg.offsetY) * cfg.scale) :: cur)
      | none => closeSeg cur ++ drawCurveAux f centerX centerY cfg rest []

/-- The function `drawCurve` (lines 280–333) restricted to its sampling content: the loop
runs over pixel columns `0 .. width` inclusive (line 293). -/
def drawCurve (f : ℚ → JSNum) (centerX centerY : ℚ) (cfg : Config)
    (width : ℕ) : List (List (ℚ × ℚ)) :=
  drawCurveAux f centerX centerY cfg (List.range (width + 1)) []

lemma drawCurveAux_congr (f g : ℚ → JSNum) (centerX centerY : ℚ) (cfg : Config)
    (h : ∀ x, (f x).toFinite = (g x).toFinite) :
    ∀ (cols : List ℕ) (cur : List (ℚ × ℚ)),
      drawCurveAux f centerX centerY cfg cols cur =
        drawCurveAux g centerX centerY cfg cols cur := by
  intro cols
  induction cols with
  | nil => intro cur; rfl
  | cons c rest ih =>
      intro cur
      simp only [drawCurveAux]
      rw [h (((c : ℚ) - centerX) / cfg.scale - cfg.offsetX)]
      cases hfx : (g (((c : ℚ) - centerX) / cfg.scale - cfg.offsetX)).toFinite with
      | none => simp only [ih]
      | some y => simp only [ih]

/-- C3: Evaluation-error resilience.  Any failure of the compiled expression
is caught by `evaluateFunction` and surfaced as `NaN`, and the sampling loop
produces exactly the segments it would produce if every failing or
non-finite sample were literally `NaN`: a failing sample is a path break,
never an abort of the rest of the curve. -/
theorem evaluateFunction_resilient (raw : String → ℚ → Except Unit JSNum)
    (expression : String) (centerX centerY : ℚ) (cfg : Config) (width : ℕ) :
    (∀ (x : ℚ) (e : Unit), raw expression x = Except.error e →
        evaluateFunction raw expression x = JSNum.nan) ∧
    drawCurve (evaluateFunction raw expression) centerX centerY cfg width =
      drawCurve
        (fun x => match raw expression x with
          | Except.ok (JSNum.fin q) => JSNum.fin q
          | _ => JSNum.nan) centerX centerY cfg width := by
  constructor
  · intro x e he
    simp [evaluateFunction, he]
  · unfold drawCurve
    apply drawCurveAux_congr
    intro x
    cases hr : raw expression x with
    | ok v => cases v <;> simp [evaluateFunction, hr, JSNum.toFinite]
    | error e => simp [evaluateFunction, hr, JSNum.toFinite]

/-- Witness for C3 with an evaluator that throws on negative inputs. -/
theorem evaluateFunction_resilient_witness :
    (∀ (x : ℚ) (e : Unit),
        (fun (_ : String) (y : ℚ) =>
          if y < 0 then (Except.error () : Except Unit JSNum)
          else Except.ok (JSNum.fin y)) "sqrt(x)" x = Except.error e →
        evaluateFunction
          (fun (_ : String) (y : ℚ) =>
            if y < 0 then (Except.error () : Except Unit JSNum)
            else Except.ok (JSNum.fin y)) "sqrt(x)" x = JSNum.nan) ∧
    drawCurve
        (evaluateFunction
          (fun (_ : String) (y : ℚ) =>
            if y < 0 then (Except.error () : Except Unit JSNum)
            else Except.ok (JSNum.fin y)) "sqrt(x)")
        400 300 defaultConfig 800 =
      drawCurve
        (fun x =>
          match
            (fun (_ : String) (y : ℚ) =>
              if y < 0 then (Except.error () : Except Unit JSNum)
              else Except.ok (JSNum.fin y)) "sqrt(x)" x with
          | Except.ok (JSNum.fin q) => JSNum.fin q
          | _ => JSNum.nan) 400 300 defaultConfig 800 :=
  evaluateFunction_resilient
    (fun (_ : String) (y : ℚ) =>
      if y < 0 then (Except.error () : Except Unit JSNum)
      else Except.ok (JSNum.fin y)) "sqrt(x)" 400 300 defaultConfig 800

lemma drawCurveAux_length_pos_of_cur (f : ℚ → JSNum) (centerX centerY : ℚ)
    (cfg : Config) :
    ∀ (cols : List ℕ) (cur : List (ℚ × ℚ)), cur ≠ [] →
      1 ≤ (drawCurveAux f centerX centerY cfg cols cur).length := by
  intro cols
  induction cols with
  | nil =>
      intro cur hcur
      simp [drawCurveAux, closeSeg, List.isEmpty_iff, hcur]
  | cons c rest ih =>
      intro cur hcur
      simp only [drawCurveAux]
      cases hfx : (f (((c : ℚ) - centerX) / cfg.scale - cfg.offsetX)).toFinite with
      | some y => exact ih _ (by simp)
      | none =>
          simp only [List.length_append]
          have : (closeSeg cur).length = 1 := by
            simp [closeSeg, List.isEmpty_iff, hcur]
          omega

lemma drawCurveAux_length_pos (f : ℚ → JSNum) (centerX centerY : ℚ)
    (cfg : Config) :
    ∀ (cols : List ℕ) (cur : List (ℚ × ℚ)),
      (∃ c ∈ cols, (f (((c : ℚ) - centerX) / cfg.scale - cfg.offsetX)).toFinite ≠ none) →
      1 ≤ (drawCurveAux f centerX centerY cfg cols cur).length := by
  intro cols
  induction cols with
  | nil =>
      intro cur h
      obtain ⟨c, hc, _⟩ := h
      simp at hc
  | cons c' rest ih =>
      intro cur h
      simp only [drawCurveAux]
      cases hfx : (f (((c' : ℚ) - centerX) / cfg.scale - cfg.offsetX)).toFinite with
      | some y => exact drawCurveAux_length_pos_of_cur f centerX centerY cfg rest _ (by simp)
      | none =>
          obtain ⟨c, hc, hval⟩ := h
          rcases List.mem_cons.mp hc with rfl | hcrest
          · exact absurd hfx hval
          · have h1 := ih [] ⟨c, hcrest, hval⟩
            simp only [List.length_append]
            omega

lemma drawCurveAux_split (f : ℚ → JSNum) (centerX centerY : ℚ) (cfg : Config)
    (j : ℕ) (hj : (f (((j : ℚ) - centerX) / cfg.scale - cfg.offsetX)).toFinite = none) :
    ∀ (l₁ l₂ : List ℕ) (cur : List (ℚ × ℚ)),
      drawCurveAux f centerX centerY cfg (l₁ ++ j :: l₂) cur =
        drawCurveAux f centerX centerY cfg (l₁ ++ [j]) cur ++
          drawCurveAux f centerX centerY cfg l₂ [] := by
  intro l₁
  induction l₁ with
  | nil =>
      intro l₂ cur
      simp only [List.nil_append, drawCurveAux, hj]
      simp [drawCurveAux, closeSeg]
  | cons c rest ih =>
      intro l₂ cur
      simp only [List.cons_append, drawCurveAux, List.append_eq]
      cases hfx : (f (((c : ℚ) - centerX) / cfg.scale - cfg.offsetX)).toFinite with
      | some y => exact ih l₂ _
      | none =>
          rw [List.append_assoc]
          exact congrArg (fun l => closeSeg cur ++ l) (ih l₂ [])

lemma drawCurveAux_points_valid (f : ℚ → JSNum) (centerX centerY : ℚ)
    (cfg : Config) :
    ∀ (cols : List ℕ) (cur : List (ℚ × ℚ)),
      (∀ pt ∈ cur, (f (screenToMathX centerX cfg pt.1)).toFinite ≠ none) →
      ∀ seg ∈ drawCurveAux f centerX centerY cfg cols cur, ∀ pt ∈ seg,
        (f (screenToMathX centerX cfg pt.1)).toFinite ≠ none := by
  intro cols
  induction cols with
  | nil =>
      intro cur hcur seg hseg pt hpt
      cases cur with
      | nil => simp [drawCurveAux, closeSeg] at hseg
      | cons p ps =>
          simp [drawCurveAux, closeSeg] at hseg
          subst hseg
          exact hcur pt (by simp at hpt ⊢; tauto)
  | cons c rest ih =>
      intro cur hcur seg hseg pt hpt
      simp only [drawCurveAux] at hseg
      cases hfx : (f (((c : ℚ) - centerX) / cfg.scale - cfg.offsetX)).toFinite with
      | some y =>
          rw [hfx] at hseg
          refine ih _ ?_ seg hseg pt hpt
          intro pt' hpt'
          rcases List.mem_cons.mp hpt' with rfl | hmem
          · show (f (screenToMathX centerX cfg (c : ℚ))).toFinite ≠ none
            rw [show screenToMathX centerX cfg (c : ℚ) =
                ((c : ℚ) - centerX) / cfg.scale - cfg.offsetX from rfl, hfx]
            simp
          · exact hcur pt' hmem
      | none =>
          rw [hfx] at hseg
          rcases List.mem_append.mp hseg with hs1 | hs2
          · cases cur with
            | nil => simp [closeSeg] at hs1
            | cons p ps =>
                simp [closeSeg] at hs1
                subst hs1
                exact hcur pt (by simp at hpt ⊢; tauto)
          · exact ih [] (by simp) seg hs2 pt hpt

/-- C5: Discontinuity handling.  If the evaluated expression is undefined
(non-finite) exactly on the open interval `(a, b)` and the visible columns
contain a sample strictly inside `(a, b)` with defined samples on both
sides, the sampler emits at least two disjoint segments and no emitted
point has math x strictly inside `(a, b)`. -/
theorem drawCurve_discontinuity (f : ℚ → JSNum) (a b : ℚ)
    (centerX centerY : ℚ) (cfg : Config) (width : ℕ)
    (hf : ∀ x, (f x).isFinite = true ↔ ¬(a < x ∧ x < b))
    (i j k : ℕ) (hij : i < j) (hjk : j < k) (hkw : k ≤ width)
    (hi : ¬(a < screenToMathX centerX cfg (i : ℚ) ∧
          screenToMathX centerX cfg (i : ℚ) < b))
    (hj : a < screenToMathX centerX cfg (j : ℚ) ∧
          screenToMathX centerX cfg (j : ℚ) < b)
    (hk : ¬(a < screenToMathX centerX cfg (k : ℚ) ∧
          screenToMathX centerX cfg (k : ℚ) < b)) :
    2 ≤ (drawCurve f centerX centerY cfg width).length ∧
    ∀ seg ∈ drawCurve f centerX centerY cfg width, ∀ pt ∈ seg,
      ¬(a < screenToMathX centerX cfg pt.1 ∧ screenToMathX centerX cfg pt.1 < b) := by
  have hf' : ∀ x, (f x).toFinite = none ↔ (a < x ∧ x < b) := by
    intro x
    have hx := hf x
    rcases hv : f x with q | _ | _ | _ <;> rw [hv] at hx <;>
      simp only [JSNum.isFinite, JSNum.toFinite] at hx ⊢ <;>
      simp at hx ⊢ <;> tauto
  have hxj : screenToMathX centerX cfg (j : ℚ) =
      ((j : ℚ) - centerX) / cfg.scale - cfg.offsetX := rfl
  have hjnone : (f (((j : ℚ) - centerX) / cfg.scale - cfg.offsetX)).toFinite = none := by
    rw [← hxj, hf' _]
    exact hj
  have hisome : (f (((i : ℚ) - centerX) / cfg.scale - cfg.offsetX)).toFinite ≠ none := by
    intro hcon
    exact hi ((hf' (screenToMathX centerX cfg (i : ℚ))).mp hcon)
  have hksome : (f (((k : ℚ) - centerX) / cfg.scale - cfg.offsetX)).toFinite ≠ none := by
    intro hcon
    exact hk ((hf' (screenToMathX centerX cfg (k : ℚ))).mp hcon)
  have hsplit : List.range (width + 1) =
      List.range j ++ j :: ((List.range (width - j)).map fun m => j + (m + 1)) := by
    have h1 : width + 1 = j + (width - j + 1) := by omega
    rw [h1, List.range_add, List.range_succ_eq_map]
    congr 1
    simp only [List.map_cons, Nat.add_zero]
    congr 1
    rw [List.map_map]
    rfl
  constructor
  · unfold drawCurve
    rw [hsplit, drawCurveAux_split f centerX centerY cfg j hjnone]
    rw [List.length_append]
    have hleft : 1 ≤ (drawCurveAux f centerX centerY cfg (List.range j ++ [j]) []).length := by
      apply drawCurveAux_length_pos
      exact ⟨i, List.mem_append_left _ (List.mem_range.mpr hij), hisome⟩
    have hright : 1 ≤ (drawCurveAux f centerX centerY cfg
        ((List.range (width - j)).map fun m => j + (m + 1)) []).length := by
      apply drawCurveAux_length_pos
      refine ⟨k, ?_, hksome⟩
      apply List.mem_map.mpr
      exact ⟨k - j - 1, List.mem_range.mpr (by omega), by omega⟩
    omega
  · intro seg hseg pt hpt
    have hvalid := drawCurveAux_points_valid f centerX centerY cfg
      (List.range (width + 1)) [] (by simp) seg hseg pt hpt
    intro hin
    exact hvalid ((hf' _).mpr hin)

/-- Witness for C5: undefined exactly on `(0, 1)`, scale 2, columns 0, 1, 2;
column 1 samples math x `1/2`, strictly inside the gap. -/
theorem drawCurve_discontinuity_witness :
    2 ≤ (drawCurve (fun x => if 0 < x ∧ x < 1 then JSNum.nan else JSNum.fin x)
          0 0 { defaultConfig with scale := 2 } 2).length ∧
    ∀ seg ∈ drawCurve (fun x => if 0 < x ∧ x < 1 then JSNum.nan else JSNum.fin x)
          0 0 { defaultConfig with scale := 2 } 2, ∀ pt ∈ seg,
      ¬(0 < screenToMathX 0 { defaultConfig with scale := 2 } pt.1 ∧
        screenToMathX 0 { defaultConfig with scale := 2 } pt.1 < 1) :=
  drawCurve_discontinuity
    (fun x => if 0 < x ∧ x < 1 then JSNum.nan else JSNum.fin x) 0 1 0 0
    { defaultConfig with scale := 2 } 2
    (by
      intro x
      by_cases hx : 0 < x ∧ x < 1 <;> simp [JSNum.isFinite, hx])
    0 1 2 (by norm_num) (by norm_num) (by norm_num)
    (by norm_num [screenToMathX, defaultConfig])
    (by norm_num [screenToMathX, defaultConfig])
    (by norm_num [screenToMathX, defaultConfig])

/-- C9: Implicit frame condition of pan.  The pan operation mutates only
`offsetX` and `offsetY`; `scale` and every other configuration field are left
unchanged by a pan of any pixel delta. -/
theorem pan_frame (cfg : Config) (dx dy : ℚ) :
    (pan cfg dx dy).scale = cfg.scale ∧
    (pan cfg dx dy).step = cfg.step ∧
    (pan cfg dx dy).axisColor = cfg.axisColor ∧
    (pan cfg dx dy).gridColor = cfg.gridColor ∧
    (pan cfg dx dy).lineColor = cfg.lineColor ∧
    (pan cfg dx dy).lineWidth = cfg.lineWidth :=
  ⟨rfl, rfl, rfl, rfl, rfl, rfl⟩
